import Mathlib

/-!
Verification of the transactional database writer
(edne_correios_loader/dbwriter.py).

The Python module is shallowly embedded below.  Row values and column
names are modelled as strings (the source feeds rows of strings).  The
database connection is modelled by the trace of calls issued against it
(lists of executed bulk inserts / deletes), and the process clock by a
natural number.  The one external algorithm the source calls,
graphlib.TopologicalSorter.static_order, is modelled by Kahn's algorithm
per its documented contract (predecessors first, CycleError on a cyclic
graph), which is also how the spec describes it.
-/

namespace DneLoader

/-! ### LogCapture (dbwriter.py lines 14-29) -/

/-- One diagnostic event: the data the formatter
string %(levelname)s: %(message)s consumes. -/
structure LogRecord where
  levelname : String
  message : String
deriving DecidableEq

/-- Formatter %(levelname)s: %(message)s applied to a record. -/
def formatRecord (r : LogRecord) : String := r.levelname ++ ": " ++ r.message

/-- The LogCapture handler: an in-memory list of formatted lines. -/
structure LogCapture where
  log_records : List String
deriving DecidableEq

/-- LogCapture.emit appends the formatted record. -/
def LogCapture.emitRecord (lc : LogCapture) (r : LogRecord) : LogCapture :=
  ⟨lc.log_records ++ [formatRecord r]⟩

/-- LogCapture.get_logs joins the captured lines with newlines. -/
def LogCapture.get_logs (lc : LogCapture) : String :=
  String.intercalate "\n" lc.log_records

/-! ### register_update (dbwriter.py lines 125-141) -/

/-- One row of the log_dne_update audit table; datetime.now() is
modelled as a Nat-valued clock reading. -/
structure AuditRow where
  update_date : Nat
  logs : String
deriving DecidableEq

/-- register_update: first emits its own INFO diagnostic (line 129,
which the attached LogCapture handler also captures), then reads
get_logs, inserts one audit row with the current clock value, and
finally emits the success diagnostic (line 141).  Returns the audit
table after the insert and the final capture state. -/
def register_update (now : Nat) (lc : LogCapture) (audit : List AuditRow) :
    List AuditRow × LogCapture :=
  let lc1 := lc.emitRecord ⟨"INFO", "Recording DNE database update"⟩
  let logs := lc1.get_logs
  let audit1 := audit ++ [⟨now, logs⟩]
  let lc2 := lc1.emitRecord ⟨"INFO", "Update successfully recorded"⟩
  (audit1, lc2)

/-! ### The session scope exit (dbwriter.py lines 50-59)

The body of __exit__ is a plain statement sequence with no try/finally:
rollback-or-commit, then connection.close(), then removeHandler.  Each
of the three connection calls is an external call that may itself
raise; a raising call aborts the rest of the method.  The booleans
say which (if any) of the collaborator calls raises; the result is the
list of steps that ran to completion, in order, together with whether
an exception escaped the method. -/

/-- The observable steps of DneDatabaseWriter.__exit__. -/
inductive ExitStep where
  | rollback
  | commit
  | closeConn
  | removeHandler
deriving DecidableEq

/-- Model of __exit__: exc_val chooses rollback vs commit; a step whose
fail flag is set raises, and the remaining statements never run. -/
def dneExit (excVal rollbackFails commitFails closeFails : Bool) :
    List ExitStep × Bool :=
  if excVal then
    if rollbackFails then ([], true)
    else if closeFails then ([ExitStep.rollback], true)
    else ([ExitStep.rollback, ExitStep.closeConn, ExitStep.removeHandler], false)
  else
    if commitFails then ([], true)
    else if closeFails then ([ExitStep.commit], true)
    else ([ExitStep.commit, ExitStep.closeConn, ExitStep.removeHandler], false)

/-! ### clean_tables (dbwriter.py lines 68-84)

The database is modelled by its per-table row count; the connection by
the trace of operations executed against it. -/

/-- Database operations clean_tables issues: a SELECT count() and a
bulk DELETE, each against one table. -/
inductive DbOp where
  | countRows (table : String)
  | deleteRows (table : String)
deriving DecidableEq

/-- The loop body of clean_tables over the (already reversed) table
list: count the rows, and only when the count is nonzero execute one
bulk delete, which empties the table. -/
def cleanLoop (counts : String → Nat) : List String → List DbOp × (String → Nat)
  | [] => ([], counts)
  | t :: rest =>
      if counts t ≠ 0 then
        let counts1 := fun u => if u = t then 0 else counts u
        let r := cleanLoop counts1 rest
        (DbOp.countRows t :: DbOp.deleteRows t :: r.1, r.2)
      else
        let r := cleanLoop counts rest
        (DbOp.countRows t :: r.1, r.2)

/-- clean_tables iterates over reversed(tables). -/
def clean_tables (counts : String → Nat) (tables : List String) :
    List DbOp × (String → Nat) :=
  cleanLoop counts tables.reverse

/-- The table a count operation queries, when the op is a count. -/
def DbOp.countTarget : DbOp → Option String
  | DbOp.countRows t => some t
  | DbOp.deleteRows _ => none

/-! ### Table metadata (sqlalchemy objects consumed by dbwriter) -/

/-- A foreign key of a table: fk.parent.name is the referencing column
in the owning table, fk.column.table.name the referenced table. -/
structure ForeignKey where
  parentName : String
  refTableName : String
deriving DecidableEq

/-- The slice of a sqlalchemy Table that populate_table consumes. -/
structure Table where
  key : String
  columns : List String
  foreign_keys : List ForeignKey
deriving DecidableEq

/-- find_self_referencing_fks (lines 147-156): the first foreign key
whose referenced table is the table itself, as its referencing column
name. -/
def find_self_referencing_fks (t : Table) : Option String :=
  (t.foreign_keys.find? (fun fk => fk.refTableName == t.key)).map
    (fun fk => fk.parentName)

/-! ### sort_topologically (dbwriter.py lines 158-184) -/

/-- A raw input row: the list of its cell values. -/
abbrev Row := List String

/-- The topological_graph dict: insertion-ordered association list from
a key (first-column value) to the set of parent values seen for it. -/
abbrev Graph := List (String × List String)

/-- Adding to a Python set, modelled as first-insertion-ordered list. -/
def setAdd (s : List String) (v : String) : List String :=
  if v ∈ s then s else s ++ [v]

/-- topological_graph.setdefault(k, set()).add(v). -/
def graphInsert : Graph → String → String → Graph
  | [], k, v => [(k, [v])]
  | (k1, s) :: rest, k, v =>
      if k1 = k then (k1, setAdd s v) :: rest
      else (k1, s) :: graphInsert rest k v

/-- The graph-building loop (lines 180-181): for every row, map its
first cell to the set of values at the self-referencing column.
line[0] and line[fk_index] are modelled totally via defaults; the
theorems below restrict to rows of the table arity, where the defaults
are never used. -/
def buildGraph (lines : List Row) (fk_index : Nat) : Graph :=
  lines.foldl (fun g line => graphInsert g (line.headD "") (line.getD fk_index "")) []

/-- Reading the dict: the predecessor set recorded for key k. -/
def gget (g : Graph) (k : String) : List String :=
  match g.find? (fun p => p.1 == k) with
  | some p => p.2
  | none => []

/-- The keys of the graph, in insertion order. -/
def graphKeys (g : Graph) : List String := g.map Prod.fst

/-- graphlib also treats every value mentioned only as a predecessor as
a node (with no predecessors of its own): close the graph under that. -/
def fullGraph (g : Graph) : Graph :=
  g ++ (((g.flatMap Prod.snd).filter
            (fun v => !(graphKeys g).contains v)).dedup).map (fun v => (v, []))

/-- A pending node is ready when all its predecessors are emitted. -/
def readyNode (acc : List String) (p : String × List String) : Bool :=
  p.2.all (fun v => acc.contains v)

/-- Kahn's algorithm: repeatedly emit all ready nodes; a nonempty
pending set with no ready node is a cycle (the None result models
graphlib raising CycleError).  The fuel only bounds the recursion; it
is always sufficient at the call site. -/
def kahnAux : Nat → Graph → List String → Option (List String)
  | fuel, pending, acc =>
      if pending.isEmpty then some acc
      else
        match fuel with
        | 0 => none
        | fuel1 + 1 =>
            let ready := pending.filter (readyNode acc)
            if ready.isEmpty then none
            else
              kahnAux fuel1 (pending.filter (fun p => !readyNode acc p))
                (acc ++ ready.map Prod.fst)

/-- Modelled from the contract of the external
graphlib.TopologicalSorter(graph).static_order(): all nodes of the
graph in an order placing every node after its predecessors, or None
(CycleError) when the graph is cyclic. -/
def static_order (g : Graph) : Option (List String) :=
  kahnAux (fullGraph g).length (fullGraph g) []

/-- sort_topologically: build the graph, compute the static order, and
stably sort the rows by the position of their key in it (Python's
sorted with key sorted_map.index(line[0])).  None models the CycleError
escaping. -/
def sort_topologically (lines : List Row) (self_referencing_fk : String)
    (columns : List String) : Option (List Row) :=
  let fk_index := columns.indexOf self_referencing_fk
  let g := buildGraph lines fk_index
  match static_order g with
  | none => none
  | some sorted_map =>
      some (lines.mergeSort (fun l1 l2 =>
        decide (sorted_map.indexOf (l1.headD "") ≤ sorted_map.indexOf (l2.headD ""))))

/-! ### populate_table (dbwriter.py lines 94-123) -/

/-- The errors populate_table can raise by itself: the CycleError from
the sorter, and the NameError on the loop variable count when the
input is empty (line 120 reads count, which the zero-iteration loop
never bound). -/
inductive PopErr where
  | cycleError
  | unboundLocalCount
deriving DecidableEq

/-- insert_buffer_size (line 36). -/
def insert_buffer_size : Nat := 1000

/-- dict(zip(columns, line)) (line 109): positional pairing of column
names with cell values, truncating to the shorter of the two. -/
def bindRow (columns : List String) (line : Row) : List (String × String) :=
  columns.zip line

/-- The buffered-insert loop (lines 106-116): rows are appended to the
buffer one by one; whenever the buffer reaches bufSize it is flushed as
one bulk insert; a nonempty remainder is flushed after the loop.  The
result is the list of executed bulk-insert payloads, in order. -/
def flushBatches {α : Type} (bufSize : Nat) : List α → List α → List (List α)
  | buffer, [] => if buffer.isEmpty then [] else [buffer]
  | buffer, r :: rs =>
      let buffer1 := buffer ++ [r]
      if bufSize ≤ buffer1.length then buffer1 :: flushBatches bufSize [] rs
      else flushBatches bufSize buffer1 rs

/-- populate_table: resolve the self-referencing foreign key; sort the
rows topologically when one exists (CycleError aborts before any
insert); stream the rows through the bounded buffer; finally log the
count, which raises NameError when the loop never ran.  Result: the
bulk inserts executed against the connection, in order, and the
exception populate_table itself raises, if any. -/
def populate_table (t : Table) (lines : List Row) :
    List (List (List (String × String))) × Option PopErr :=
  match find_self_referencing_fks t with
  | some fkName =>
      match sort_topologically lines fkName t.columns with
      | none => ([], some PopErr.cycleError)
      | some sortedLines =>
          (flushBatches insert_buffer_size []
              (sortedLines.map (bindRow t.columns)),
           if sortedLines.isEmpty then some PopErr.unboundLocalCount else none)
  | none =>
      (flushBatches insert_buffer_size [] (lines.map (bindRow t.columns)),
       if lines.isEmpty then some PopErr.unboundLocalCount else none)

/-! ### Derived notions used by the statements -/

/-- Key a directly depends on key b: some row with first cell a carries
b in its self-referencing column. -/
abbrev dependsOn (g : Graph) (a b : String) : Prop := b ∈ gget g a

/-- The dependency graph is cyclic: some key transitively depends on
itself. -/
def hasCycle (g : Graph) : Prop := ∃ k, Relation.TransGen (dependsOn g) k k

end DneLoader


namespace DneLoader

/-! ### Lemmas about the insert buffer -/

theorem flushBatches_nil {α : Type} (n : Nat) (buffer : List α) :
    flushBatches n buffer [] = if buffer.isEmpty then [] else [buffer] := rfl

theorem flushBatches_cons {α : Type} (n : Nat) (buffer : List α) (r : α) (rs : List α) :
    flushBatches n buffer (r :: rs) =
      if n ≤ (buffer ++ [r]).length then (buffer ++ [r]) :: flushBatches n [] rs
      else flushBatches n (buffer ++ [r]) rs := rfl

theorem flushBatches_flatten {α : Type} (n : Nat) :
    ∀ (rows buffer : List α), (flushBatches n buffer rows).flatten = buffer ++ rows := by
  intro rows
  induction rows with
  | nil =>
      intro buffer
      rw [flushBatches_nil]
      cases h : buffer.isEmpty with
      | true => simp [List.isEmpty_iff.mp h]
      | false => simp
  | cons r rs ih =>
      intro buffer
      rw [flushBatches_cons]
      split
      · simp [ih]
      · simp [ih]

theorem flushBatches_sizes {α : Type} {n : Nat} (hn : 1 ≤ n) :
    ∀ (rows buffer : List α), buffer.length < n →
      (∀ b ∈ flushBatches n buffer rows, b ≠ []) ∧
      (∀ b ∈ (flushBatches n buffer rows).dropLast, b.length = n) := by
  intro rows
  induction rows with
  | nil =>
      intro buffer _
      rw [flushBatches_nil]
      cases h : buffer.isEmpty with
      | true => simp [h]
      | false =>
          simp only [h, Bool.false_eq_true, if_false]
          refine ⟨?_, by simp⟩
          intro b hb
          simp only [List.mem_singleton] at hb
          subst hb
          exact fun hnil => by simp [hnil] at h
  | cons r rs ih =>
      intro buffer hlt
      rw [flushBatches_cons]
      split
      · next hge =>
          have hlen : (buffer ++ [r]).length = n := by
            simp only [List.length_append, List.length_singleton] at hge ⊢
            omega
          have ihr := ih [] (by simpa using hn)
          constructor
          · intro b hb
            rcases List.mem_cons.mp hb with hb | hb
            · subst hb
              intro hnil
              rw [hnil] at hlen
              simp only [List.length_nil] at hlen
              omega
            · exact ihr.1 b hb
          · intro b hb
            cases hL : flushBatches n ([] : List α) rs with
            | nil => rw [hL] at hb; simp at hb
            | cons c cs =>
                rw [hL, List.dropLast_cons₂] at hb
                rcases List.mem_cons.mp hb with hb | hb
                · subst hb; exact hlen
                · have h2 := ihr.2 b
                  rw [hL] at h2
                  exact h2 hb
      · next hge =>
          exact ih (buffer ++ [r]) (Nat.lt_of_not_le hge)

theorem flushBatches_full {α : Type} {n : Nat} :
    ∀ (xs buffer ys : List α), xs ≠ [] → (buffer ++ xs).length = n →
      flushBatches n buffer (xs ++ ys) = (buffer ++ xs) :: flushBatches n [] ys := by
  intro xs
  induction xs with
  | nil => intro _ _ h; exact absurd rfl h
  | cons x xs ih =>
      intro buffer ys _ hlen
      cases xs with
      | nil =>
          have hle : n ≤ (buffer ++ [x]).length := Nat.le_of_eq hlen.symm
          rw [List.singleton_append, flushBatches_cons, if_pos hle]
      | cons x2 xs2 =>
          have hnle : ¬ n ≤ (buffer ++ [x]).length := by
            rw [List.append_cons] at hlen
            rw [← hlen]
            simp only [List.length_append, List.length_cons, List.length_singleton]
            omega
          rw [List.cons_append, flushBatches_cons, if_neg hnle,
            ih (buffer ++ [x]) ys (by simp) (by simpa using hlen)]
          simp

theorem flushBatches_small {α : Type} {n : Nat} :
    ∀ (rows buffer : List α), (buffer ++ rows).length < n →
      flushBatches n buffer rows =
        if (buffer ++ rows).isEmpty then [] else [buffer ++ rows] := by
  intro rows
  induction rows with
  | nil => intro buffer _; rw [flushBatches_nil, List.append_nil]
  | cons r rs ih =>
      intro buffer hlt
      have hnle : ¬ n ≤ (buffer ++ [r]).length := by
        simp only [List.length_append, List.length_cons, List.length_singleton,
          List.length_nil] at hlt ⊢
        omega
      rw [flushBatches_cons, if_neg hnle, ih (buffer ++ [r]) (by simpa using hlt)]
      simp

theorem map_snd_zip_eq_take {α β : Type} :
    ∀ (l1 : List α) (l2 : List β), (l1.zip l2).map Prod.snd = l2.take l1.length := by
  intro l1
  induction l1 with
  | nil => intro l2; simp
  | cons a l1 ih =>
      intro l2
      cases l2 with
      | nil => simp
      | cons b l2 => simp [ih]

end DneLoader

namespace DneLoader

/-! ### Unfolding lemmas for populate_table -/

theorem populate_table_of_no_fk {t : Table} (hfk : find_self_referencing_fks t = none)
    (lines : List Row) :
    populate_table t lines =
      (flushBatches insert_buffer_size [] (lines.map (bindRow t.columns)),
       if lines.isEmpty then some PopErr.unboundLocalCount else none) := by
  simp only [populate_table, hfk]

theorem populate_table_of_fk_cycle {t : Table} {fkName : String}
    (hfk : find_self_referencing_fks t = some fkName) {lines : List Row}
    (hsort : sort_topologically lines fkName t.columns = none) :
    populate_table t lines = ([], some PopErr.cycleError) := by
  simp only [populate_table, hfk, hsort]

theorem populate_table_of_fk_sorted {t : Table} {fkName : String}
    (hfk : find_self_referencing_fks t = some fkName) {lines sortedLines : List Row}
    (hsort : sort_topologically lines fkName t.columns = some sortedLines) :
    populate_table t lines =
      (flushBatches insert_buffer_size [] (sortedLines.map (bindRow t.columns)),
       if sortedLines.isEmpty then some PopErr.unboundLocalCount else none) := by
  simp only [populate_table, hfk, hsort]

/-! ### Lemmas about clean_tables -/

theorem cleanLoop_cons_pos {counts : String → Nat} {t : String} (h : counts t ≠ 0)
    (rest : List String) :
    cleanLoop counts (t :: rest) =
      (DbOp.countRows t :: DbOp.deleteRows t ::
          (cleanLoop (fun u => if u = t then 0 else counts u) rest).1,
       (cleanLoop (fun u => if u = t then 0 else counts u) rest).2) := by
  simp only [cleanLoop]
  rw [if_pos h]

theorem cleanLoop_cons_neg {counts : String → Nat} {t : String} (h : counts t = 0)
    (rest : List String) :
    cleanLoop counts (t :: rest) =
      (DbOp.countRows t :: (cleanLoop counts rest).1, (cleanLoop counts rest).2) := by
  simp only [cleanLoop]
  rw [if_neg (by simpa using h)]

theorem cleanLoop_count_trace (l : List String) :
    ∀ (counts : String → Nat), ((cleanLoop counts l).1.filterMap DbOp.countTarget) = l := by
  induction l with
  | nil => intro counts; rfl
  | cons t rest ih =>
      intro counts
      by_cases h : counts t = 0
      · rw [cleanLoop_cons_neg h]
        simp [List.filterMap_cons, DbOp.countTarget, ih]
      · rw [cleanLoop_cons_pos h]
        simp [List.filterMap_cons, DbOp.countTarget, ih]

theorem cleanLoop_zero_mono (l : List String) :
    ∀ (counts : String → Nat) (t : String), counts t = 0 → (cleanLoop counts l).2 t = 0 := by
  induction l with
  | nil => intro counts t h; exact h
  | cons u rest ih =>
      intro counts t h
      by_cases hu : counts u = 0
      · rw [cleanLoop_cons_neg hu]
        exact ih counts t h
      · rw [cleanLoop_cons_pos hu]
        apply ih
        by_cases htu : t = u
        · simp [htu]
        · simp [htu, h]

theorem cleanLoop_mem_zero (l : List String) :
    ∀ (counts : String → Nat) (t : String), t ∈ l → (cleanLoop counts l).2 t = 0 := by
  induction l with
  | nil => intro _ _ h; simp at h
  | cons u rest ih =>
      intro counts t ht
      by_cases hu : counts u = 0
      · rw [cleanLoop_cons_neg hu]
        rcases List.mem_cons.mp ht with h | h
        · subst h
          exact cleanLoop_zero_mono rest counts t hu
        · exact ih counts t h
      · rw [cleanLoop_cons_pos hu]
        rcases List.mem_cons.mp ht with h | h
        · subst h
          exact cleanLoop_zero_mono rest _ t (by simp)
        · exact ih _ t h

theorem cleanLoop_no_delete_of_zero (l : List String) :
    ∀ (counts : String → Nat) (t : String), counts t = 0 →
      DbOp.deleteRows t ∉ (cleanLoop counts l).1 := by
  induction l with
  | nil => intro _ _ _ h; simp [cleanLoop] at h
  | cons u rest ih =>
      intro counts t h hmem
      by_cases hu : counts u = 0
      · rw [cleanLoop_cons_neg hu] at hmem
        rcases List.mem_cons.mp hmem with h1 | h1
        · exact (by injection h1.symm : False)
        · exact ih counts t h h1
      · rw [cleanLoop_cons_pos hu] at hmem
        have htu : t ≠ u := fun e => hu (e ▸ h)
        rcases List.mem_cons.mp hmem with h1 | h1
        · exact absurd (by injection h1.symm) htu.symm
        · rcases List.mem_cons.mp h1 with h2 | h2
          · exact htu (by injection h2)
          · exact ih _ t (by simp [htu, h]) h2

theorem cleanLoop_delete_once (l : List String) :
    ∀ (counts : String → Nat) (t : String),
      (cleanLoop counts l).1.count (DbOp.deleteRows t) ≤ 1 := by
  induction l with
  | nil => intro counts t; simp [cleanLoop]
  | cons u rest ih =>
      intro counts t
      by_cases hu : counts u = 0
      · rw [cleanLoop_cons_neg hu, List.count_cons]
        have h2 : ((DbOp.countRows u : DbOp) == DbOp.deleteRows t) = false := by
          simp
        simp only [h2, Bool.false_eq_true, if_false, Nat.add_zero]
        exact ih counts t
      · rw [cleanLoop_cons_pos hu, List.count_cons, List.count_cons]
        by_cases htu : u = t
        · subst htu
          have hzero : (cleanLoop (fun v => if v = u then 0 else counts v) rest).1.count
              (DbOp.deleteRows u) = 0 := by
            rw [List.count_eq_zero]
            exact cleanLoop_no_delete_of_zero rest _ u (by simp)
          simp [hzero]
        · have h1 : ((DbOp.deleteRows u : DbOp) == DbOp.deleteRows t) = false := by
            simp [htu]
          have h2 : ((DbOp.countRows u : DbOp) == DbOp.deleteRows t) = false := by
            simp
          simp only [h1, h2, Bool.false_eq_true, if_false, Nat.add_zero]
          exact ih _ t

end DneLoader

namespace DneLoader

theorem populate_table_fst_of_no_fk {t : Table} (hfk : find_self_referencing_fks t = none)
    (lines : List Row) :
    (populate_table t lines).1 =
      flushBatches insert_buffer_size [] (lines.map (bindRow t.columns)) := by
  rewrite [populate_table_of_no_fk hfk]
  rfl

theorem flushBatches_replicate_2500 {α : Type} (r : α) :
    (flushBatches insert_buffer_size [] (List.replicate 2500 r)).map List.length
      = [1000, 1000, 500] := by
  have hne : ∀ k : Nat, k ≠ 0 → (List.replicate k r) ≠ [] := by
    intro k hk h
    have hl := congrArg List.length h
    rw [List.length_replicate, List.length_nil] at hl
    exact hk hl
  have hlen1 : (([] : List α) ++ List.replicate 1000 r).length = insert_buffer_size := by
    rw [List.nil_append, List.length_replicate, insert_buffer_size]
  have hlen5 : (([] : List α) ++ List.replicate 500 r).length < insert_buffer_size := by
    rw [List.nil_append, List.length_replicate, insert_buffer_size]; norm_num
  have hemp : (List.replicate 500 r).isEmpty = false := by
    cases h : (List.replicate 500 r).isEmpty
    · rfl
    · exact absurd (List.isEmpty_iff.mp h) (hne 500 (by norm_num))
  rewrite [show (2500 : Nat) = 1000 + (1000 + 500) by norm_num, List.replicate_add,
    List.replicate_add,
    flushBatches_full (List.replicate 1000 r) [] _ (hne 1000 (by norm_num)) hlen1,
    flushBatches_full (List.replicate 1000 r) [] _ (hne 1000 (by norm_num)) hlen1,
    flushBatches_small (List.replicate 500 r) [] hlen5,
    List.nil_append, List.nil_append, hemp]
  simp only [Bool.false_eq_true, if_false, List.map_cons, List.map_nil,
    List.length_replicate]

/-! ### Claim C3 -/

/-- C3: populate_table flushes the insert buffer exactly when it
reaches the capacity insert_buffer_size = 1000 and once more at
end-of-input for a nonempty remainder, never issuing an insert of zero
rows: every executed bulk insert is nonempty, every one but the last
carries exactly 1000 rows, and together they carry exactly the bound
input rows; in particular 2500 input rows yield exactly three bulk
inserts of sizes 1000, 1000, 500 in that order. -/
theorem populate_table_batching :
    insert_buffer_size = 1000 ∧
    (∀ (t : Table) (lines : List Row), find_self_referencing_fks t = none →
      (∀ b ∈ (populate_table t lines).1, b ≠ []) ∧
      (∀ b ∈ (populate_table t lines).1.dropLast, b.length = 1000) ∧
      (populate_table t lines).1.flatten = lines.map (bindRow t.columns)) ∧
    (populate_table ⟨"cep", ["v"], []⟩ (List.replicate 2500 ["x"])).1.map List.length
      = [1000, 1000, 500] := by
  refine ⟨rfl, ?_, ?_⟩
  · intro t lines hfk
    rw [populate_table_of_no_fk hfk]
    have h := flushBatches_sizes (n := insert_buffer_size) (by norm_num [insert_buffer_size])
      (lines.map (bindRow t.columns)) [] (by norm_num [insert_buffer_size])
    exact ⟨h.1, fun b hb => h.2 b hb, flushBatches_flatten _ _ _⟩
  · rewrite [populate_table_fst_of_no_fk
      (show find_self_referencing_fks ⟨"cep", ["v"], []⟩ = none from rfl),
      List.map_replicate]
    exact flushBatches_replicate_2500 (bindRow (Table.mk "cep" ["v"] []).columns ["x"])

/-- Witness for C3 at a concrete table and input. -/
theorem populate_table_batching_witness :
    (∀ b ∈ (populate_table ⟨"w3", ["v"], []⟩ [["a"], ["b"]]).1, b ≠ []) ∧
    (populate_table ⟨"w3", ["v"], []⟩ [["a"], ["b"]]).1.flatten
      = [["a"], ["b"]].map (bindRow ["v"]) :=
  ⟨(populate_table_batching.2.1 ⟨"w3", ["v"], []⟩ [["a"], ["b"]] rfl).1,
   (populate_table_batching.2.1 ⟨"w3", ["v"], []⟩ [["a"], ["b"]] rfl).2.2⟩

/-! ### Claim C4 -/

/-- C4: for a table without a self-referencing foreign key, the
concatenation of the rows passed to the bulk inserts is exactly the
input row sequence, in order: as bound rows it is precisely the
column-value binding of each input row in input order, and (for rows of
the table arity) stripping the column names recovers the input
verbatim. -/
theorem populate_table_preserves_order (t : Table) (lines : List Row)
    (hfk : find_self_referencing_fks t = none)
    (har : ∀ line ∈ lines, line.length = t.columns.length) :
    (populate_table t lines).1.flatten = lines.map (bindRow t.columns) ∧
    ((populate_table t lines).1.flatten).map (List.map Prod.snd) = lines := by
  rw [populate_table_of_no_fk hfk]
  refine ⟨flushBatches_flatten _ _ _, ?_⟩
  rw [flushBatches_flatten, List.nil_append, List.map_map]
  have h : ∀ line ∈ lines, (List.map Prod.snd ∘ bindRow t.columns) line = id line := by
    intro line hl
    show (bindRow t.columns line).map Prod.snd = line
    rw [bindRow, map_snd_zip_eq_take, ← har line hl, List.take_length]
  rw [List.map_congr_left h, List.map_id]

/-- Witness for C4 at a concrete table and input. -/
theorem populate_table_preserves_order_witness :
    (populate_table ⟨"w4", ["a", "b"], []⟩ [["1", "2"], ["3", "4"]]).1.flatten.map
        (List.map Prod.snd) = [["1", "2"], ["3", "4"]] :=
  (populate_table_preserves_order ⟨"w4", ["a", "b"], []⟩ [["1", "2"], ["3", "4"]] rfl
    (by decide)).2

/-! ### Claim C9 -/

/-- C9: called with an empty row sequence on a table without a
self-referencing foreign key, populate_table executes zero bulk
inserts, and instead of completing it raises the unbound-local error on
the loop counter count, which the zero-iteration loop never bound. -/
theorem populate_table_empty_input (t : Table)
    (hfk : find_self_referencing_fks t = none) :
    populate_table t [] = ([], some PopErr.unboundLocalCount) := by
  rw [populate_table_of_no_fk hfk]
  rfl

/-- Witness for C9 at a concrete table. -/
theorem populate_table_empty_input_witness :
    populate_table ⟨"w9", ["v"], []⟩ [] = ([], some PopErr.unboundLocalCount) :=
  populate_table_empty_input ⟨"w9", ["v"], []⟩ rfl

/-! ### Claim C6 -/

/-- C6 counterexample: a row with three values bound against a
two-column table is not rejected with a FormatError; populate_table
executes one bulk insert carrying the row truncated to the first two
values and raises no error at all. -/
theorem populate_table_no_format_error :
    populate_table ⟨"t2", ["a", "b"], []⟩ [["1", "2", "3"]] =
      ([[[("a", "1"), ("b", "2")]]], none) := by decide

/-- C6 (amended): a row whose value count does not match the column
count is never rejected: dict(zip(columns, line)) silently pairs
columns with values positionally and truncates to the shorter side, so
an over-long row is inserted truncated, an under-long row binds only
its leading columns, and populate_table itself reports no arity
error. -/
theorem populate_table_arity_truncation :
    (∀ (columns : List String) (line : Row),
      (bindRow columns line).length = min columns.length line.length ∧
      (bindRow columns line).map Prod.snd = line.take columns.length) ∧
    (∀ (t : Table) (lines : List Row), find_self_referencing_fks t = none →
      lines ≠ [] → (populate_table t lines).2 = none) := by
  constructor
  · intro columns line
    exact ⟨List.length_zip columns line, map_snd_zip_eq_take _ _⟩
  · intro t lines hfk hne
    rw [populate_table_of_no_fk hfk]
    simp [List.isEmpty_iff, hne]

/-- Witness for C6 applying the amended theorem at the counterexample
input. -/
theorem populate_table_arity_truncation_witness :
    (bindRow ["a", "b"] ["1", "2", "3"]).length = min 2 3 ∧
    (populate_table ⟨"w6", ["a", "b"], []⟩ [["1", "2", "3"]]).2 = none :=
  ⟨(populate_table_arity_truncation.1 ["a", "b"] ["1", "2", "3"]).1,
   populate_table_arity_truncation.2 ⟨"w6", ["a", "b"], []⟩ [["1", "2", "3"]] rfl
     (by decide)⟩

/-! ### Claim C5 -/

/-- C5 counterexample: with the sink holding exactly the three events
INFO a, INFO b, ERROR c, the audit row register_update inserts does not
persist the three-line text INFO: a, INFO: b, ERROR: c: register_update
emits its own diagnostic before reading the sink, so a fourth line is
persisted with it. -/
theorem register_update_not_exact_text :
    ((register_update 0
        ((((LogCapture.mk []).emitRecord ⟨"INFO", "a"⟩).emitRecord
            ⟨"INFO", "b"⟩).emitRecord ⟨"ERROR", "c"⟩) []).1).map AuditRow.logs
      ≠ ["INFO: a\nINFO: b\nERROR: c"] := by decide

/-- C5 (amended): after capturing the three events INFO a, INFO b,
ERROR c the sink yields exactly the text INFO: a, INFO: b, ERROR: c
joined by newlines; register_update, which first emits its own INFO
line Recording DNE database update into the same sink, inserts exactly
one audit row whose log text is those three lines followed by that
fourth line, and whose timestamp is no earlier than scope entry. -/
theorem register_update_audit (entry now : Nat) (audit : List AuditRow)
    (h : entry ≤ now) :
    ((((LogCapture.mk []).emitRecord ⟨"INFO", "a"⟩).emitRecord
        ⟨"INFO", "b"⟩).emitRecord ⟨"ERROR", "c"⟩).get_logs
      = "INFO: a\nINFO: b\nERROR: c" ∧
    (register_update now
        ((((LogCapture.mk []).emitRecord ⟨"INFO", "a"⟩).emitRecord
            ⟨"INFO", "b"⟩).emitRecord ⟨"ERROR", "c"⟩) audit).1
      = audit ++
        [⟨now, "INFO: a\nINFO: b\nERROR: c\nINFO: Recording DNE database update"⟩] ∧
    ∀ r ∈ (register_update now
        ((((LogCapture.mk []).emitRecord ⟨"INFO", "a"⟩).emitRecord
            ⟨"INFO", "b"⟩).emitRecord ⟨"ERROR", "c"⟩) audit).1.drop audit.length,
      entry ≤ r.update_date := by
  refine ⟨by decide, ?_, ?_⟩
  · show audit ++ [_] = audit ++ [_]
    congr 1
  · intro r hr
    show entry ≤ r.update_date
    have heq : (register_update now
        ((((LogCapture.mk []).emitRecord ⟨"INFO", "a"⟩).emitRecord
            ⟨"INFO", "b"⟩).emitRecord ⟨"ERROR", "c"⟩) audit).1
        = audit ++ [⟨now, "INFO: a\nINFO: b\nERROR: c\nINFO: Recording DNE database update"⟩] := by
      show audit ++ [_] = audit ++ [_]
      congr 1
    rw [heq, List.drop_left] at hr
    simp only [List.mem_singleton] at hr
    subst hr
    exact h

/-- Witness for C5 applying the amended theorem at concrete clocks. -/
theorem register_update_audit_witness :
    (register_update 3
        ((((LogCapture.mk []).emitRecord ⟨"INFO", "a"⟩).emitRecord
            ⟨"INFO", "b"⟩).emitRecord ⟨"ERROR", "c"⟩) []).1
      = [⟨3, "INFO: a\nINFO: b\nERROR: c\nINFO: Recording DNE database update"⟩] :=
  (register_update_audit 1 3 [] (by decide)).2.1

/-! ### Claim C7 -/

/-- C7 counterexample: when the scope body succeeded but commit itself
raises, __exit__ neither closes the connection nor removes the log
handler: there is no guaranteed-release wrapping, so the statements
after the failing commit never run. -/
theorem dneExit_commit_raise_skips_cleanup :
    ExitStep.closeConn ∉ (dneExit false false true false).1 ∧
    ExitStep.removeHandler ∉ (dneExit false false true false).1 := by decide

/-- C7 (amended): on scope exit the transaction is rolled back exactly
when an error occurred in the body and committed otherwise, and when no
cleanup call itself raises the connection is closed and the log handler
detached; but the method is not exception-safe: if rollback, commit, or
close itself raises, every later statement (close, handler removal) is
skipped. -/
theorem dneExit_behaviour :
    (∀ e, dneExit e false false false =
      ([if e then ExitStep.rollback else ExitStep.commit, ExitStep.closeConn,
        ExitStep.removeHandler], false)) ∧
    (∀ r c cl, ExitStep.rollback ∉ (dneExit false r c cl).1 ∧
      ExitStep.commit ∉ (dneExit true r c cl).1) ∧
    (∀ cl, dneExit false false true cl = ([], true)) ∧
    (∀ cl, dneExit true true false cl = ([], true)) ∧
    (∀ e, (dneExit e false false true).2 = true ∧
      ExitStep.removeHandler ∉ (dneExit e false false true).1) := by decide

/-! ### Claim C8 -/

/-- C8: clean_tables processes the named tables in reverse of the given
order (the trace of count queries is exactly the reversed name list,
and for parent before child the delete against child is issued before
the delete against parent), counts before deleting and deletes only on
a nonzero count, issues at most one bulk delete per table, and leaves
every named table empty. -/
theorem clean_tables_spec :
    (∀ (counts : String → Nat) (tables : List String),
      (clean_tables counts tables).1.filterMap DbOp.countTarget = tables.reverse) ∧
    (∀ (counts : String → Nat) (tables : List String) (t : String), t ∈ tables →
      (clean_tables counts tables).2 t = 0) ∧
    (∀ (counts : String → Nat) (tables : List String) (t : String), counts t = 0 →
      DbOp.deleteRows t ∉ (clean_tables counts tables).1) ∧
    (∀ (counts : String → Nat) (tables : List String) (t : String),
      (clean_tables counts tables).1.count (DbOp.deleteRows t) ≤ 1) ∧
    (clean_tables (fun t => if t = "parent" then 2 else if t = "child" then 3 else 0)
        ["parent", "child"]).1
      = [DbOp.countRows "child", DbOp.deleteRows "child",
         DbOp.countRows "parent", DbOp.deleteRows "parent"] := by
  refine ⟨?_, ?_, ?_, ?_, by decide⟩
  · intro counts tables
    exact cleanLoop_count_trace tables.reverse counts
  · intro counts tables t ht
    exact cleanLoop_mem_zero tables.reverse counts t (List.mem_reverse.mpr ht)
  · intro counts tables t h
    exact cleanLoop_no_delete_of_zero tables.reverse counts t h
  · intro counts tables t
    exact cleanLoop_delete_once tables.reverse counts t

/-- Witness for C8 at a concrete database state and table list. -/
theorem clean_tables_spec_witness :
    (clean_tables (fun t => if t = "parent" then 2 else if t = "child" then 3 else 0)
        ["parent", "child"]).2 "child" = 0 ∧
    DbOp.deleteRows "ghost" ∉
      (clean_tables (fun t => if t = "parent" then 2 else if t = "child" then 3 else 0)
        ["parent", "child"]).1 :=
  ⟨clean_tables_spec.2.1 _ ["parent", "child"] "child" (by decide),
   clean_tables_spec.2.2.1 _ ["parent", "child"] "ghost" (by decide)⟩

end DneLoader

namespace DneLoader

/-! ### Lemmas about the topological graph construction -/

theorem mem_setAdd {s : List String} {v x : String} :
    x ∈ setAdd s v ↔ x ∈ s ∨ x = v := by
  unfold setAdd
  split
  · next h => constructor
              · exact fun hx => Or.inl hx
              · rintro (hx | rfl)
                · exact hx
                · exact h
  · simp

theorem self_mem_setAdd (s : List String) (v : String) : v ∈ setAdd s v :=
  mem_setAdd.mpr (Or.inr rfl)

theorem graphKeys_graphInsert (k v : String) :
    ∀ g : Graph, graphKeys (graphInsert g k v) =
      if k ∈ graphKeys g then graphKeys g else graphKeys g ++ [k] := by
  intro g
  induction g with
  | nil => simp [graphInsert, graphKeys]
  | cons hd rest ih =>
      obtain ⟨k1, s⟩ := hd
      by_cases hk : k1 = k
      · subst hk
        simp [graphInsert, graphKeys]
      · simp only [graphInsert, hk, if_false]
        simp only [graphKeys, List.map_cons] at ih ⊢
        rw [ih]
        by_cases hmem : k ∈ List.map Prod.fst rest
        · simp [hmem, hk, Ne.symm hk]
        · simp only [hmem, if_false, List.mem_cons]
          have hcond : ¬ (k = k1 ∨ False) := by
            rintro (h | h)
            · exact hk h.symm
            · exact h
          rw [if_neg hcond]
          simp

theorem nodup_graphKeys_graphInsert {g : Graph} (h : (graphKeys g).Nodup)
    (k v : String) : (graphKeys (graphInsert g k v)).Nodup := by
  rw [graphKeys_graphInsert]
  split
  · exact h
  · next hmem =>
      rw [List.nodup_append]
      exact ⟨h, List.nodup_singleton k, by simpa using hmem⟩

theorem gget_graphInsert_self (k v : String) :
    ∀ g : Graph, gget (graphInsert g k v) k = setAdd (gget g k) v := by
  intro g
  induction g with
  | nil => simp [graphInsert, gget, setAdd]
  | cons hd rest ih =>
      obtain ⟨k1, s⟩ := hd
      by_cases hk : k1 = k
      · subst hk
        simp [graphInsert, gget]
      · have hbeq : (k1 == k) = false := beq_eq_false_iff_ne.mpr hk
        simp only [graphInsert, hk, if_false, gget, List.find?_cons, hbeq]
        exact ih

theorem gget_graphInsert_ne {k1 k : String} (h : k1 ≠ k) (v : String) :
    ∀ g : Graph, gget (graphInsert g k v) k1 = gget g k1 := by
  intro g
  induction g with
  | nil =>
      have hbeq : (k == k1) = false := beq_eq_false_iff_ne.mpr (Ne.symm h)
      simp [graphInsert, gget, hbeq]
  | cons hd rest ih =>
      obtain ⟨k2, s⟩ := hd
      by_cases hk : k2 = k
      · have hbeq : (k2 == k1) = false := by
          rw [hk]
          exact beq_eq_false_iff_ne.mpr (Ne.symm h)
        simp only [graphInsert, if_pos hk]
        simp [gget, List.find?_cons, hbeq]
      · simp only [graphInsert, if_neg hk]
        by_cases h2 : k2 = k1
        · subst h2
          simp [gget, List.find?_cons]
        · have hbeq : (k2 == k1) = false := beq_eq_false_iff_ne.mpr h2
          simp only [gget, List.find?_cons, hbeq] at ih ⊢
          exact ih

theorem gget_mono_graphInsert {g : Graph} {kq x : String} (hx : x ∈ gget g kq)
    (k v : String) : x ∈ gget (graphInsert g k v) kq := by
  by_cases hk : kq = k
  · subst hk
    rw [gget_graphInsert_self]
    exact mem_setAdd.mpr (Or.inl hx)
  · rw [gget_graphInsert_ne hk]
    exact hx

theorem self_mem_gget_graphInsert (g : Graph) (k v : String) :
    v ∈ gget (graphInsert g k v) k := by
  rw [gget_graphInsert_self]
  exact self_mem_setAdd _ _

end DneLoader


namespace DneLoader

theorem mem_graphKeys_graphInsert_self (g : Graph) (k v : String) :
    k ∈ graphKeys (graphInsert g k v) := by
  rw [graphKeys_graphInsert]
  split
  · next h => exact h
  · simp

theorem graphKeys_mono_graphInsert {g : Graph} {kq : String}
    (h : kq ∈ graphKeys g) (k v : String) : kq ∈ graphKeys (graphInsert g k v) := by
  rw [graphKeys_graphInsert]
  split
  · exact h
  · exact List.mem_append_left _ h

theorem buildGraph_loop_gget_mono (lines : List Row) (fk : Nat) :
    ∀ (g : Graph) (kq x : String), x ∈ gget g kq →
      x ∈ gget (lines.foldl
        (fun g1 line => graphInsert g1 (line.headD "") (line.getD fk "")) g) kq := by
  induction lines with
  | nil => intro g kq x hx; exact hx
  | cons line rest ih =>
      intro g kq x hx
      rw [List.foldl_cons]
      exact ih _ kq x (gget_mono_graphInsert hx _ _)

theorem buildGraph_loop_keys_mono (lines : List Row) (fk : Nat) :
    ∀ (g : Graph) (kq : String), kq ∈ graphKeys g →
      kq ∈ graphKeys (lines.foldl
        (fun g1 line => graphInsert g1 (line.headD "") (line.getD fk "")) g) := by
  induction lines with
  | nil => intro g kq h; exact h
  | cons line rest ih =>
      intro g kq h
      rw [List.foldl_cons]
      exact ih _ kq (graphKeys_mono_graphInsert h _ _)

theorem buildGraph_loop_nodup (lines : List Row) (fk : Nat) :
    ∀ g : Graph, (graphKeys g).Nodup →
      (graphKeys (lines.foldl
        (fun g1 line => graphInsert g1 (line.headD "") (line.getD fk "")) g)).Nodup := by
  induction lines with
  | nil => intro g h; exact h
  | cons line rest ih =>
      intro g h
      rw [List.foldl_cons]
      exact ih _ (nodup_graphKeys_graphInsert h _ _)

theorem nodup_graphKeys_buildGraph (lines : List Row) (fk : Nat) :
    (graphKeys (buildGraph lines fk)).Nodup :=
  buildGraph_loop_nodup lines fk [] (by simp [graphKeys])

theorem buildGraph_loop_mem (fk : Nat) :
    ∀ (lines : List Row) (g : Graph) (line : Row), line ∈ lines →
      (line.getD fk "") ∈ gget (lines.foldl
        (fun g1 l => graphInsert g1 (l.headD "") (l.getD fk "")) g) (line.headD "") := by
  intro lines
  induction lines with
  | nil => intro g line h; simp at h
  | cons hd rest ih =>
      intro g line h
      rw [List.foldl_cons]
      rcases List.mem_cons.mp h with h1 | h1
      · subst h1
        exact buildGraph_loop_gget_mono rest fk _ _ _ (self_mem_gget_graphInsert g _ _)
      · exact ih _ line h1

theorem mem_gget_buildGraph {lines : List Row} {line : Row} (h : line ∈ lines)
    (fk : Nat) : (line.getD fk "") ∈ gget (buildGraph lines fk) (line.headD "") :=
  buildGraph_loop_mem fk lines [] line h

theorem buildGraph_loop_head_mem (fk : Nat) :
    ∀ (lines : List Row) (g : Graph) (line : Row), line ∈ lines →
      (line.headD "") ∈ graphKeys (lines.foldl
        (fun g1 l => graphInsert g1 (l.headD "") (l.getD fk "")) g) := by
  intro lines
  induction lines with
  | nil => intro g line h; simp at h
  | cons hd rest ih =>
      intro g line h
      rw [List.foldl_cons]
      rcases List.mem_cons.mp h with h1 | h1
      · subst h1
        exact buildGraph_loop_keys_mono rest fk _ _ (mem_graphKeys_graphInsert_self g _ _)
      · exact ih _ line h1

theorem headD_mem_graphKeys_buildGraph {lines : List Row} {line : Row}
    (h : line ∈ lines) (fk : Nat) :
    (line.headD "") ∈ graphKeys (buildGraph lines fk) :=
  buildGraph_loop_head_mem fk lines [] line h

end DneLoader

namespace DneLoader

/-! ### Lemmas about the closed graph fed to the sorter -/

theorem map_fst_mk_nil :
    ∀ d : List String, List.map Prod.fst (d.map (fun v => (v, ([] : List String)))) = d := by
  intro d
  induction d with
  | nil => rfl
  | cons a d ih => simp [ih]

theorem graphKeys_fullGraph (g : Graph) :
    graphKeys (fullGraph g) =
      graphKeys g ++
        ((g.flatMap Prod.snd).filter (fun v => !(graphKeys g).contains v)).dedup := by
  show List.map Prod.fst (g ++ _) = _
  rw [List.map_append, map_fst_mk_nil]
  rfl

theorem gget_fullGraph (g : Graph) (k : String) :
    gget (fullGraph g) k = gget g k := by
  unfold fullGraph gget
  rw [List.find?_append]
  cases hg : g.find? (fun p => p.1 == k) with
  | some p => rfl
  | none =>
      simp only [Option.none_or]
      cases he : (((g.flatMap Prod.snd).filter
          (fun v => !(graphKeys g).contains v)).dedup.map (fun v => (v, []))).find?
          (fun p => p.1 == k) with
      | none => rfl
      | some p =>
          have hmem := List.mem_of_find?_eq_some he
          obtain ⟨v, _, hv⟩ := List.mem_map.mp hmem
          rw [← hv]

theorem nodup_graphKeys_fullGraph {g : Graph} (h : (graphKeys g).Nodup) :
    (graphKeys (fullGraph g)).Nodup := by
  rw [graphKeys_fullGraph, List.nodup_append]
  refine ⟨h, List.nodup_dedup _, ?_⟩
  intro x hx hx2
  have h2 := (List.mem_filter.mp (List.mem_dedup.mp hx2)).2
  have h3 : (graphKeys g).contains x = true := List.elem_eq_true_of_mem hx
  rw [h3] at h2
  simp at h2

theorem fullGraph_closed (g : Graph) :
    ∀ k ps, (k, ps) ∈ fullGraph g → ∀ p ∈ ps, p ∈ graphKeys (fullGraph g) := by
  intro k ps hm p hp
  rcases List.mem_append.mp hm with hm | hm
  · have hflat : p ∈ g.flatMap Prod.snd :=
      List.mem_flatMap.mpr ⟨(k, ps), hm, hp⟩
    rw [graphKeys_fullGraph]
    by_cases hk : p ∈ graphKeys g
    · exact List.mem_append_left _ hk
    · refine List.mem_append_right _ (List.mem_dedup.mpr (List.mem_filter.mpr ⟨hflat, ?_⟩))
      simp [hk]
  · obtain ⟨v, _, hv⟩ := List.mem_map.mp hm
    have : ps = [] := by
      have := congrArg Prod.snd hv
      simpa using this.symm
    subst this
    simp at hp

theorem mem_of_gget_ne {g : Graph} {k : String} (h : gget g k ≠ []) :
    (k, gget g k) ∈ g := by
  unfold gget at h ⊢
  cases hf : g.find? (fun p => p.1 == k) with
  | none => rw [hf] at h; exact absurd rfl h
  | some pr =>
      have h1 := List.mem_of_find?_eq_some hf
      have h3 : pr.1 = k := by simpa using List.find?_some hf
      show (k, pr.2) ∈ g
      rw [← h3]
      exact h1

theorem gget_of_mem_nodup :
    ∀ {g : Graph}, (graphKeys g).Nodup → ∀ {k : String} {ps : List String},
      (k, ps) ∈ g → gget g k = ps := by
  intro g
  induction g with
  | nil => intro _ k ps hm; simp at hm
  | cons hd rest ih =>
      intro hnd k ps hm
      obtain ⟨k1, s1⟩ := hd
      rcases List.mem_cons.mp hm with h1 | h1
      · obtain ⟨e1, e2⟩ := Prod.mk.injEq .. |>.mp h1.symm
        subst e1
        subst e2
        simp [gget, List.find?_cons]
      · have hnd1 : k1 ∉ List.map Prod.fst rest ∧ (List.map Prod.fst rest).Nodup := by
          rw [graphKeys, List.map_cons, List.nodup_cons] at hnd
          exact hnd
        have hk : k1 ≠ k := by
          intro e
          subst e
          exact hnd1.1 (List.mem_map.mpr ⟨(k1, ps), h1, rfl⟩)
        have hbeq : (k1 == k) = false := beq_eq_false_iff_ne.mpr hk
        simp only [gget, List.find?_cons, hbeq]
        exact ih hnd1.2 h1

end DneLoader

namespace DneLoader

/-! ### Lemmas about the Kahn sorter -/

theorem kahnAux_nil (fuel : Nat) (acc : List String) :
    kahnAux fuel [] acc = some acc := by
  rw [kahnAux.eq_def]
  simp

theorem kahnAux_zero {pending : Graph} (h : pending ≠ []) (acc : List String) :
    kahnAux 0 pending acc = none := by
  rw [kahnAux.eq_def]
  simp [List.isEmpty_iff, h]

theorem kahnAux_succ (fuel : Nat) {pending : Graph} (h : pending ≠ [])
    (acc : List String) :
    kahnAux (fuel + 1) pending acc =
      if (pending.filter (readyNode acc)).isEmpty then none
      else
        kahnAux fuel (pending.filter (fun p => !readyNode acc p))
          (acc ++ (pending.filter (readyNode acc)).map Prod.fst) := by
  conv =>
    left
    rw [kahnAux.eq_def]
  simp [List.isEmpty_iff, h]

end DneLoader

namespace DneLoader

theorem kahnAux_sound :
    ∀ (fuel : Nat) (pending : Graph) (acc o : List String),
      (acc ++ graphKeys pending).Nodup →
      kahnAux fuel pending acc = some o →
      (∃ rest, o = acc ++ rest) ∧
      ∀ k ps, (k, ps) ∈ pending → ∀ p ∈ ps, o.indexOf p < o.indexOf k := by
  intro fuel
  induction fuel with
  | zero =>
      intro pending acc o hnd h
      by_cases hp : pending = []
      · subst hp
        rw [kahnAux_nil] at h
        obtain rfl : acc = o := Option.some_inj.mp h
        refine ⟨⟨[], (List.append_nil acc).symm⟩, ?_⟩
        intro k ps hm
        simp at hm
      · rw [kahnAux_zero hp] at h
        exact absurd h (by simp)
  | succ fuel ih =>
      intro pending acc o hnd h
      by_cases hp : pending = []
      · subst hp
        rw [kahnAux_nil] at h
        obtain rfl : acc = o := Option.some_inj.mp h
        refine ⟨⟨[], (List.append_nil acc).symm⟩, ?_⟩
        intro k ps hm
        simp at hm
      · rw [kahnAux_succ fuel hp] at h
        by_cases hre : (pending.filter (readyNode acc)).isEmpty
        · rw [if_pos hre] at h
          exact absurd h (by simp)
        · rw [if_neg hre] at h
          have hpermKeys :
              ((pending.filter (readyNode acc)).map Prod.fst ++
                graphKeys (pending.filter (fun p => !readyNode acc p))).Perm
                (graphKeys pending) := by
            have h2 := (List.filter_append_perm (readyNode acc) pending).map Prod.fst
            rw [List.map_append] at h2
            exact h2
          have hnd2 :
              ((acc ++ (pending.filter (readyNode acc)).map Prod.fst) ++
                graphKeys (pending.filter (fun p => !readyNode acc p))).Nodup := by
            have hperm2 :
                ((acc ++ (pending.filter (readyNode acc)).map Prod.fst) ++
                  graphKeys (pending.filter (fun p => !readyNode acc p))).Perm
                  (acc ++ graphKeys pending) := by
              rw [List.append_assoc]
              exact List.Perm.append_left acc hpermKeys
            exact hperm2.symm.nodup hnd
          obtain ⟨⟨rest, hrest⟩, hord⟩ := ih _ _ o hnd2 h
          have ho : o = acc ++ ((pending.filter (readyNode acc)).map Prod.fst ++ rest) := by
            rw [hrest, List.append_assoc]
          refine ⟨⟨(pending.filter (readyNode acc)).map Prod.fst ++ rest, ho⟩, ?_⟩
          intro k ps hm p hp2
          by_cases hr : readyNode acc (k, ps) = true
          · have hkready : k ∈ (pending.filter (readyNode acc)).map Prod.fst :=
              List.mem_map.mpr ⟨(k, ps), List.mem_filter.mpr ⟨hm, hr⟩, rfl⟩
            have hall : ps.all (fun v => acc.contains v) = true := hr
            have hpacc : p ∈ acc :=
              List.mem_of_elem_eq_true (List.all_eq_true.mp hall p hp2)
            have hknacc : k ∉ acc := by
              have hdisj := (List.nodup_append.mp hnd).2.2
              intro hka
              exact hdisj hka (List.mem_map.mpr ⟨(k, ps), hm, rfl⟩)
            rw [ho, List.indexOf_append_of_mem hpacc,
              List.indexOf_append_of_not_mem hknacc]
            calc List.indexOf p acc < acc.length := List.indexOf_lt_length.mpr hpacc
              _ ≤ acc.length +
                    List.indexOf k ((pending.filter (readyNode acc)).map Prod.fst ++ rest) :=
                Nat.le_add_right _ _
          · have hm2 : (k, ps) ∈ pending.filter (fun p => !readyNode acc p) :=
              List.mem_filter.mpr ⟨hm, by simp [hr]⟩
            exact hord k ps hm2 p hp2

end DneLoader

namespace DneLoader

theorem exists_cycle_of_forall_succ {r : String → String → Prop} (S : List String)
    (hS : S ≠ []) (h : ∀ k ∈ S, ∃ p, p ∈ S ∧ r k p) :
    ∃ k, Relation.TransGen r k k := by
  classical
  obtain ⟨k0, hk0⟩ := List.exists_mem_of_ne_nil S hS
  choose f hfS hfr using h
  let F : {x // x ∈ S} → {x // x ∈ S} := fun x => ⟨f x.1 x.2, hfS x.1 x.2⟩
  have hstep : ∀ y : {x // x ∈ S}, r y.1 (F y).1 := fun y => hfr y.1 y.2
  have chain : ∀ n m, m < n →
      Relation.TransGen r ((F^[m]) ⟨k0, hk0⟩).1 ((F^[n]) ⟨k0, hk0⟩).1 := by
    intro n
    induction n with
    | zero => intro m hm; exact absurd hm (Nat.not_lt_zero m)
    | succ n ihn =>
        intro m hm
        rcases Nat.lt_succ_iff_lt_or_eq.mp hm with h1 | h1
        · refine (ihn m h1).tail ?_
          rw [Function.iterate_succ_apply']
          exact hstep _
        · subst h1
          refine Relation.TransGen.single ?_
          rw [Function.iterate_succ_apply']
          exact hstep _
  have hfin : Finite {x // x ∈ S} := (S.finite_toSet).to_subtype
  obtain ⟨a, b, hab, heq⟩ :=
    Finite.exists_ne_map_eq_of_infinite (fun n : Nat => (F^[n]) ⟨k0, hk0⟩)
  rcases hab.lt_or_lt with hlt | hlt
  · exact ⟨((F^[a]) ⟨k0, hk0⟩).1, by
      have hc := chain b a hlt
      rw [← heq] at hc
      exact hc⟩
  · exact ⟨((F^[b]) ⟨k0, hk0⟩).1, by
      have hc := chain a b hlt
      rw [heq] at hc
      exact hc⟩

theorem kahnAux_complete {g : Graph} :
    ∀ (fuel : Nat) (pending : Graph) (acc : List String),
      pending.length ≤ fuel →
      (∀ k ps, (k, ps) ∈ pending → ∀ p ∈ ps, p ∈ gget g k) →
      (∀ k ps, (k, ps) ∈ pending → ∀ p ∈ ps, p ∈ acc ∨ p ∈ graphKeys pending) →
      ¬ hasCycle g →
      ∃ o, kahnAux fuel pending acc = some o := by
  intro fuel
  induction fuel with
  | zero =>
      intro pending acc hlen _ _ _
      have hp : pending = [] := List.length_eq_zero.mp (Nat.le_zero.mp hlen)
      subst hp
      exact ⟨acc, kahnAux_nil 0 acc⟩
  | succ fuel ih =>
      intro pending acc hlen hedges hclosed hnc
      by_cases hp : pending = []
      · subst hp
        exact ⟨acc, kahnAux_nil _ acc⟩
      · have hready : ¬ (pending.filter (readyNode acc)).isEmpty = true := by
          intro hre
          apply hnc
          have hre2 : pending.filter (readyNode acc) = [] := List.isEmpty_iff.mp hre
          have hstuck : ∀ k ∈ graphKeys pending, ∃ p,
              p ∈ graphKeys pending ∧ dependsOn g k p := by
            intro k hk
            obtain ⟨pr, hpr, hfst⟩ := List.mem_map.mp hk
            obtain ⟨k1, ps⟩ := pr
            obtain rfl : k1 = k := hfst
            have hnr : readyNode acc (k1, ps) = false := by
              by_contra hcon
              have : (k1, ps) ∈ pending.filter (readyNode acc) :=
                List.mem_filter.mpr ⟨hpr, by simpa using hcon⟩
              rw [hre2] at this
              simp at this
            have hnall : ¬ ps.all (fun v => acc.contains v) = true := by
              intro hcon
              rw [show (ps.all (fun v => acc.contains v)) = readyNode acc (k1, ps)
                from rfl, hnr] at hcon
              exact absurd hcon (by simp)
            rw [List.all_eq_true] at hnall
            push_neg at hnall
            obtain ⟨p, hpps, hpnacc⟩ := hnall
            have hpmem : p ∈ acc ∨ p ∈ graphKeys pending :=
              hclosed k1 ps hpr p hpps
            have hpnacc2 : p ∉ acc := fun hmem =>
              hpnacc (List.elem_eq_true_of_mem hmem)
            refine ⟨p, hpmem.resolve_left hpnacc2, ?_⟩
            exact hedges k1 ps hpr p hpps
          obtain ⟨k, hcyc⟩ := exists_cycle_of_forall_succ (graphKeys pending)
            (by simpa [graphKeys] using hp) hstuck
          exact ⟨k, hcyc⟩
        have hlt : (pending.filter (fun p => !readyNode acc p)).length < pending.length := by
          have hperm := (List.filter_append_perm (readyNode acc) pending).length_eq
          rw [List.length_append] at hperm
          have hrnz : (pending.filter (readyNode acc)).length ≠ 0 := by
            intro hzero
            exact hready (by
              rw [List.isEmpty_iff, ← List.length_eq_zero]
              exact hzero)
          omega
        have hlen2 : (pending.filter (fun p => !readyNode acc p)).length ≤ fuel := by
          omega
        have hedges2 : ∀ k ps, (k, ps) ∈ pending.filter (fun p => !readyNode acc p) →
            ∀ p ∈ ps, p ∈ gget g k := fun k ps hm p hp2 =>
          hedges k ps (List.mem_filter.mp hm).1 p hp2
        have hclosed2 : ∀ k ps, (k, ps) ∈ pending.filter (fun p => !readyNode acc p) →
            ∀ p ∈ ps, p ∈ (acc ++ (pending.filter (readyNode acc)).map Prod.fst) ∨
              p ∈ graphKeys (pending.filter (fun p => !readyNode acc p)) := by
          intro k ps hm p hp2
          rcases hclosed k ps (List.mem_filter.mp hm).1 p hp2 with hacc | hkeys
          · exact Or.inl (List.mem_append_left _ hacc)
          · have hpermKeys :
                ((pending.filter (readyNode acc)).map Prod.fst ++
                  graphKeys (pending.filter (fun p => !readyNode acc p))).Perm
                  (graphKeys pending) := by
              have h2 := (List.filter_append_perm (readyNode acc) pending).map Prod.fst
              rw [List.map_append] at h2
              exact h2
            rcases List.mem_append.mp (hpermKeys.mem_iff.mpr hkeys) with h1 | h1
            · exact Or.inl (List.mem_append_right _ h1)
            · exact Or.inr h1
        obtain ⟨o, ho⟩ := ih _ _ hlen2 hedges2 hclosed2 hnc
        refine ⟨o, ?_⟩
        rw [kahnAux_succ fuel hp, if_neg hready]
        exact ho

end DneLoader

namespace DneLoader

theorem static_order_sound {g : Graph} (hnd : (graphKeys g).Nodup)
    {o : List String} (h : static_order g = some o) :
    ∀ k p, dependsOn g k p → o.indexOf p < o.indexOf k := by
  intro k p hdep
  have hndf := nodup_graphKeys_fullGraph hnd
  have hs := kahnAux_sound (fullGraph g).length (fullGraph g) [] o
    (by simpa using hndf) h
  have hne : gget g k ≠ [] := by
    intro he
    have hdep2 : p ∈ gget g k := hdep
    rw [he] at hdep2
    simp at hdep2
  have hmemg : (k, gget g k) ∈ g := mem_of_gget_ne hne
  exact hs.2 k (gget g k) (List.mem_append_left _ hmemg) p hdep

theorem not_hasCycle_of_static_order {g : Graph} (hnd : (graphKeys g).Nodup)
    {o : List String} (h : static_order g = some o) : ¬ hasCycle g := by
  rintro ⟨k, hk⟩
  have hmono : ∀ a b, Relation.TransGen (dependsOn g) a b →
      o.indexOf b < o.indexOf a := by
    intro a b hab
    induction hab with
    | single h1 => exact static_order_sound hnd h _ _ h1
    | tail _ h1 ihs => exact lt_trans (static_order_sound hnd h _ _ h1) ihs
  exact lt_irrefl _ (hmono k k hk)

theorem not_hasCycle_of_static_order_isSome {g : Graph} (hnd : (graphKeys g).Nodup)
    (h : (static_order g).isSome = true) : ¬ hasCycle g := by
  obtain ⟨o, ho⟩ := Option.isSome_iff_exists.mp h
  exact not_hasCycle_of_static_order hnd ho

theorem static_order_complete {g : Graph} (hnd : (graphKeys g).Nodup)
    (hnc : ¬ hasCycle g) : ∃ o, static_order g = some o := by
  have hndf := nodup_graphKeys_fullGraph hnd
  apply kahnAux_complete (fullGraph g).length (fullGraph g) [] (le_refl _)
  · intro k ps hm p hp
    have : gget (fullGraph g) k = ps := gget_of_mem_nodup hndf hm
    rw [gget_fullGraph] at this
    rw [← this] at hp
    exact hp
  · intro k ps hm p hp
    exact Or.inr (fullGraph_closed g k ps hm p hp)
  · exact hnc

end DneLoader

namespace DneLoader

theorem sort_topologically_of_none {lines : List Row} {fkName : String}
    {columns : List String}
    (h : static_order (buildGraph lines (columns.indexOf fkName)) = none) :
    sort_topologically lines fkName columns = none := by
  simp only [sort_topologically]
  rw [h]

theorem sort_topologically_of_some {lines : List Row} {fkName : String}
    {columns : List String} {o : List String}
    (h : static_order (buildGraph lines (columns.indexOf fkName)) = some o) :
    sort_topologically lines fkName columns =
      some (lines.mergeSort (fun l1 l2 =>
        decide (o.indexOf (l1.headD "") ≤ o.indexOf (l2.headD "")))) := by
  simp only [sort_topologically]
  rw [h]

theorem sort_topologically_spec (lines : List Row) (fkName : String)
    (columns : List String)
    (hnc : ¬ hasCycle (buildGraph lines (columns.indexOf fkName))) :
    ∃ out, sort_topologically lines fkName columns = some out ∧
      out.Perm lines ∧
      ∀ i (hi : i < out.length),
        (∃ line ∈ lines, line.headD "" =
            (out.get ⟨i, hi⟩).getD (columns.indexOf fkName) "") →
        ∃ j, ∃ hj : j < out.length, j < i ∧
          (out.get ⟨j, hj⟩).headD "" =
            (out.get ⟨i, hi⟩).getD (columns.indexOf fkName) "" := by
  have hnd := nodup_graphKeys_buildGraph lines (columns.indexOf fkName)
  obtain ⟨o, ho⟩ := static_order_complete hnd hnc
  refine ⟨lines.mergeSort (fun l1 l2 =>
      decide (o.indexOf (l1.headD "") ≤ o.indexOf (l2.headD ""))),
    sort_topologically_of_some ho, List.mergeSort_perm lines _, ?_⟩
  have hsorted := @List.sorted_mergeSort Row
    (fun l1 l2 : Row =>
      decide (o.indexOf (l1.headD "") ≤ o.indexOf (l2.headD "")))
    (fun a b c hab hbc => by
      simp only [decide_eq_true_eq] at hab hbc ⊢
      exact le_trans hab hbc)
    (fun a b => by
      simp only [Bool.or_eq_true, decide_eq_true_eq]
      exact Nat.le_total _ _)
    lines
  have hpw := List.pairwise_iff_get.mp hsorted
  intro i hi hex
  obtain ⟨lineP, hlineP, hheadP⟩ := hex
  have hRmem : (lines.mergeSort _).get ⟨i, hi⟩ ∈ lines :=
    (List.mergeSort_perm lines _).mem_iff.mp (List.get_mem _ i hi)
  have hedge := mem_gget_buildGraph hRmem (columns.indexOf fkName)
  have hPK : ((lines.mergeSort _).get ⟨i, hi⟩).getD (columns.indexOf fkName) "" ≠
      ((lines.mergeSort _).get ⟨i, hi⟩).headD "" := by
    intro he
    apply hnc
    exact ⟨((lines.mergeSort _).get ⟨i, hi⟩).headD "",
      Relation.TransGen.single (he ▸ hedge)⟩
  have hrank := static_order_sound hnd ho _ _ hedge
  have hPmem : lineP ∈ lines.mergeSort (fun l1 l2 =>
      decide (o.indexOf (l1.headD "") ≤ o.indexOf (l2.headD ""))) :=
    (List.mergeSort_perm lines _).mem_iff.mpr hlineP
  obtain ⟨⟨j, hj⟩, hget⟩ := List.mem_iff_get.mp hPmem
  refine ⟨j, hj, ?_, by rw [hget]; exact hheadP⟩
  rcases Nat.lt_trichotomy j i with hji | hji | hji
  · exact hji
  · exfalso
    apply hPK
    have hfin : (⟨j, hj⟩ : Fin _) = ⟨i, hi⟩ := Fin.ext hji
    rw [hfin] at hget
    rw [← hget] at hheadP
    exact hheadP.symm
  · exfalso
    have hle := hpw ⟨i, hi⟩ ⟨j, hj⟩ (Fin.mk_lt_mk.mpr hji)
    rw [hget] at hle
    simp only [decide_eq_true_eq] at hle
    rw [hheadP] at hle
    exact absurd hrank (Nat.not_lt.mpr hle)

end DneLoader

namespace DneLoader

/-! ### Claim C10 -/

/-- C10: for every acyclic input, sort_topologically succeeds and
returns a permutation of its input list: every input row, compared as a
whole tuple (including rows that share the same first-column key),
occurs in the output exactly as many times as in the input, and no
other rows occur. -/
theorem sort_topologically_perm (lines : List Row) (fkName : String)
    (columns : List String)
    (har : ∀ line ∈ lines, line.length = columns.length)
    (hnc : ¬ hasCycle (buildGraph lines (columns.indexOf fkName))) :
    ∃ out, sort_topologically lines fkName columns = some out ∧
      out.Perm lines ∧ ∀ row : Row,
        (out.filter (fun r => decide (r = row))).length =
          (lines.filter (fun r => decide (r = row))).length := by
  obtain ⟨out, hsort, hperm, _⟩ := sort_topologically_spec lines fkName columns hnc
  exact ⟨out, hsort, hperm, fun row => (hperm.filter _).length_eq⟩

/-- Witness for C10 at a concrete acyclic input. -/
theorem sort_topologically_perm_witness :
    ∃ out, sort_topologically [["2", "1"], ["1", "0"]] "parent" ["id", "parent"]
        = some out ∧
      out.Perm [["2", "1"], ["1", "0"]] ∧
      ∀ row : Row, (out.filter (fun r => decide (r = row))).length =
        (([["2", "1"], ["1", "0"]] : List Row).filter (fun r => decide (r = row))).length :=
  sort_topologically_perm [["2", "1"], ["1", "0"]] "parent" ["id", "parent"]
    (by decide)
    (not_hasCycle_of_static_order_isSome (nodup_graphKeys_buildGraph _ _) (by decide))

/-! ### Claim C2 -/

/-- C2: for a self-referencing table whose input rows form a cyclic
dependency graph (some key transitively depends on itself),
populate_table raises the CycleError from the topological sorter and
executes zero bulk inserts. -/
theorem populate_table_cycle_error (t : Table) (fkName : String) (lines : List Row)
    (hfk : find_self_referencing_fks t = some fkName)
    (har : ∀ line ∈ lines, line.length = t.columns.length)
    (hcyc : hasCycle (buildGraph lines (t.columns.indexOf fkName))) :
    populate_table t lines = ([], some PopErr.cycleError) := by
  have hnd := nodup_graphKeys_buildGraph lines (t.columns.indexOf fkName)
  have hsort : sort_topologically lines fkName t.columns = none := by
    cases ho : static_order (buildGraph lines (t.columns.indexOf fkName)) with
    | none => exact sort_topologically_of_none ho
    | some o => exact absurd hcyc (not_hasCycle_of_static_order hnd ho)
  exact populate_table_of_fk_cycle hfk hsort

/-- Witness for C2: the two-row cycle A depends on B, B depends on A. -/
theorem populate_table_cycle_error_witness :
    populate_table ⟨"dist", ["id", "parent"], [⟨"parent", "dist"⟩]⟩
        [["1", "2"], ["2", "1"]] = ([], some PopErr.cycleError) :=
  populate_table_cycle_error ⟨"dist", ["id", "parent"], [⟨"parent", "dist"⟩]⟩
    "parent" [["1", "2"], ["2", "1"]] rfl (by decide)
    ⟨"1", Relation.TransGen.head (b := "2") (by decide)
      (Relation.TransGen.single (by decide))⟩

/-! ### Claim C1 -/

/-- C1: for a self-referencing table and every acyclic input of
table-arity rows, populate_table does not fail with the CycleError and
inserts exactly the input rows: the concatenation of its bulk inserts
binds a permutation of the input, ordered so that every row whose
parent value P is the key (first cell) of some input row is placed
strictly after some row whose key is P. -/
theorem populate_table_topological_order (t : Table) (fkName : String)
    (lines : List Row)
    (hfk : find_self_referencing_fks t = some fkName)
    (har : ∀ line ∈ lines, line.length = t.columns.length)
    (hnc : ¬ hasCycle (buildGraph lines (t.columns.indexOf fkName))) :
    ∃ inserted : List Row,
      (populate_table t lines).1.flatten = inserted.map (bindRow t.columns) ∧
      inserted.Perm lines ∧
      (populate_table t lines).2 ≠ some PopErr.cycleError ∧
      ∀ i (hi : i < inserted.length),
        (∃ line ∈ lines, line.headD "" =
            (inserted.get ⟨i, hi⟩).getD (t.columns.indexOf fkName) "") →
        ∃ j, ∃ hj : j < inserted.length, j < i ∧
          (inserted.get ⟨j, hj⟩).headD "" =
            (inserted.get ⟨i, hi⟩).getD (t.columns.indexOf fkName) "" := by
  obtain ⟨out, hsort, hperm, horder⟩ :=
    sort_topologically_spec lines fkName t.columns hnc
  refine ⟨out, ?_, hperm, ?_, horder⟩
  · rw [populate_table_of_fk_sorted hfk hsort]
    exact flushBatches_flatten _ _ _
  · rw [populate_table_of_fk_sorted hfk hsort]
    by_cases he : out.isEmpty = true
    · simp only [he, if_true]
      simp
    · simp only [he, Bool.false_eq_true, if_false]
      simp

/-- Witness for C1: a concrete self-referencing table with an acyclic
input whose second row must be inserted before its first. -/
theorem populate_table_topological_order_witness :
    ∃ inserted : List Row,
      (populate_table ⟨"dist", ["id", "parent"], [⟨"parent", "dist"⟩]⟩
          [["2", "1"], ["1", "0"]]).1.flatten
        = inserted.map (bindRow ["id", "parent"]) ∧
      inserted.Perm [["2", "1"], ["1", "0"]] ∧
      (populate_table ⟨"dist", ["id", "parent"], [⟨"parent", "dist"⟩]⟩
          [["2", "1"], ["1", "0"]]).2 ≠ some PopErr.cycleError ∧
      ∀ i (hi : i < inserted.length),
        (∃ line ∈ ([["2", "1"], ["1", "0"]] : List Row), line.headD "" =
            (inserted.get ⟨i, hi⟩).getD 1 "") →
        ∃ j, ∃ hj : j < inserted.length, j < i ∧
          (inserted.get ⟨j, hj⟩).headD "" = (inserted.get ⟨i, hi⟩).getD 1 "" :=
  populate_table_topological_order ⟨"dist", ["id", "parent"], [⟨"parent", "dist"⟩]⟩
    "parent" [["2", "1"], ["1", "0"]] rfl (by decide)
    (not_hasCycle_of_static_order_isSome (nodup_graphKeys_buildGraph _ _) (by decide))

end DneLoader
